import Mathlib

/-!
Shallow embedding of `src/main.py` of the `pyce` repository: the
`IndexFilter` parser/matcher, the padding-free URL-safe base64 helpers
`encode_data`/`decode_data`, the retrying `IceReport.request` gateway, the
`lru_cache(1)`-memoised `IceReport.get_results` client, and the
`IceReport.dump` fragment/consolidation pipeline over an explicit
filesystem model.

Strings are modelled as lists of character codes (`List Nat`), bytes as
`Nat` values below 256.  All definitions are executable.
-/

namespace Pyce

/-- Decidable equality for `Except`, so that concrete parse results can be
checked by `decide`. -/
instance {ε α : Type _} [DecidableEq ε] [DecidableEq α] : DecidableEq (Except ε α) :=
  fun a b =>
    match a, b with
    | Except.ok x, Except.ok y =>
      if h : x = y then Decidable.isTrue (by rw [h]) else Decidable.isFalse (by simp [h])
    | Except.error x, Except.error y =>
      if h : x = y then Decidable.isTrue (by rw [h]) else Decidable.isFalse (by simp [h])
    | Except.ok _, Except.error _ => Decidable.isFalse (by simp)
    | Except.error _, Except.ok _ => Decidable.isFalse (by simp)

@[simp]
theorem except_isOk_ok {ε α : Type _} (a : α) : (Except.ok a : Except ε α).isOk = true := rfl

@[simp]
theorem except_isOk_error {ε α : Type _} (e : ε) :
    (Except.error e : Except ε α).isOk = false := rfl

@[simp]
theorem except_ok_bind {ε α β : Type _} (a : α) (f : α → Except ε β) :
    (Except.ok a : Except ε α) >>= f = f a := rfl

@[simp]
theorem except_error_bind {ε α β : Type _} (e : ε) (f : α → Except ε β) :
    (Except.error e : Except ε α) >>= f = Except.error e := rfl

/-- A Python string, as its list of character codes (ASCII range in all
inputs this program manipulates). -/
abbrev Str := List Nat

/-- Models Python `str.split(sep)` for a one-character separator `sep`
(`"".split(sep) = [""]`, separators at the ends produce empty parts). -/
def splitOnCh (sep : Nat) : Str → List Str
  | [] => [[]]
  | c :: cs =>
    match splitOnCh sep cs with
    | [] => [[]]
    | t :: ts => if c = sep then [] :: t :: ts else (c :: t) :: ts

/-- ASCII decimal digit test. -/
def isDigitCh (c : Nat) : Bool := 48 ≤ c && c ≤ 57

/-- ASCII whitespace, as stripped by Python `int(str)` before parsing. -/
def isSpaceCh (c : Nat) : Bool := c = 32 || c = 9 || c = 10 || c = 13 || c = 11 || c = 12

/-- Digit-sequence part of Python `int(str)`: a nonempty run of decimal
digits in which single underscores may appear between digits. -/
def parseDigits : Nat → Str → Option Nat
  | acc, [] => some acc
  | acc, 95 :: c :: cs => if isDigitCh c then parseDigits (acc * 10 + (c - 48)) cs else none
  | _, [95] => none
  | acc, c :: cs => if isDigitCh c then parseDigits (acc * 10 + (c - 48)) cs else none

/-- Models Python `int(str)` on ASCII input: surrounding whitespace is
stripped, then an optional sign, then digits (with optional single
underscores between digits).  Returns `none` where `int` raises
`ValueError`. -/
def parseInt (s : Str) : Option Int :=
  let t := ((s.dropWhile isSpaceCh).reverse.dropWhile isSpaceCh).reverse
  match t with
  | 43 :: rest =>
    match rest with
    | [] => none
    | c :: cs => if isDigitCh c then (parseDigits (c - 48) cs).map (Int.ofNat ·) else none
  | 45 :: rest =>
    match rest with
    | [] => none
    | c :: cs => if isDigitCh c then (parseDigits (c - 48) cs).map (fun n => -(Int.ofNat n)) else none
  | c :: cs => if isDigitCh c then (parseDigits (c - 48) cs).map (Int.ofNat ·) else none
  | [] => none

/-! ## URL-safe base64 (`encode_data` / `decode_data`)

`encode_data(decoded)` in the source is
`base64.urlsafe_b64encode(decoded.encode()).rstrip(b"=").decode()`;
`decode_data(encoded)` is
`base64.urlsafe_b64decode(encoded.encode() + b"=" * (-len(encoded) % 8)).decode()`.
We model them over the byte lists directly (UTF-8 encoding/decoding of the
surrounding `str` values is injective and not modelled). -/

/-- The URL-safe base64 alphabet: 6-bit value to character code
(`A-Z a-z 0-9 - _`). -/
def b64char (v : Nat) : Nat :=
  if v < 26 then 65 + v
  else if v < 52 then 97 + (v - 26)
  else if v < 62 then 48 + (v - 52)
  else if v = 62 then 45
  else 95

/-- Inverse alphabet table: character code back to its 6-bit value. -/
def b64inv (c : Nat) : Nat :=
  if 65 ≤ c && c ≤ 90 then c - 65
  else if 97 ≤ c && c ≤ 122 then 26 + (c - 97)
  else if 48 ≤ c && c ≤ 57 then 52 + (c - 48)
  else if c = 45 then 62
  else 63

/-- Models `base64.urlsafe_b64encode` on a byte list: 3-byte groups become
4 alphabet characters, a trailing group of 1 or 2 bytes is padded with
`'='` (code 61). -/
def b64encode : List Nat → List Nat
  | a :: b :: c :: rest =>
    b64char (a / 4) :: b64char (a % 4 * 16 + b / 16) ::
      b64char (b % 16 * 4 + c / 64) :: b64char (c % 64) :: b64encode rest
  | [a, b] => [b64char (a / 4), b64char (a % 4 * 16 + b / 16), b64char (b % 16 * 4), 61]
  | [a] => [b64char (a / 4), b64char (a % 4 * 16), 61, 61]
  | [] => []

/-- `bytes.rstrip(b"=")`: drop trailing `'='` codes. -/
def rstripEq (xs : List Nat) : List Nat :=
  (xs.reverse.dropWhile (· = 61)).reverse

/-- `encode_data`: URL-safe base64 with the `'='` padding stripped. -/
def encode_data (decoded : List Nat) : List Nat :=
  rstripEq (b64encode decoded)

/-- Models `base64.urlsafe_b64decode` in its default lenient mode
(as in `binascii.a2b_base64` without `strict_mode`): 4-character groups are
decoded in turn; a group carrying `'='` padding ends the data. -/
def b64decodeLenient : List Nat → List Nat
  | c1 :: c2 :: c3 :: c4 :: rest =>
    if c1 = 61 || c2 = 61 then []
    else if c3 = 61 then [b64inv c1 * 4 + b64inv c2 / 16]
    else if c4 = 61 then [b64inv c1 * 4 + b64inv c2 / 16, b64inv c2 % 16 * 16 + b64inv c3 / 4]
    else (b64inv c1 * 4 + b64inv c2 / 16) :: (b64inv c2 % 16 * 16 + b64inv c3 / 4) ::
      (b64inv c3 % 4 * 64 + b64inv c4) :: b64decodeLenient rest
  | _ => []

/-- `decode_data`: append `b"=" * (-len(encoded) % 8)` then base64-decode. -/
def decode_data (encoded : List Nat) : List Nat :=
  b64decodeLenient (encoded ++ List.replicate ((8 - encoded.length % 8) % 8) 61)

/-- Padding-free encoder equal to `encode_data` (proved below): the final
partial group is emitted without the `'='` characters that `rstrip`
removes. -/
def b64encodeNoPad : List Nat → List Nat
  | a :: b :: c :: rest =>
    b64char (a / 4) :: b64char (a % 4 * 16 + b / 16) ::
      b64char (b % 16 * 4 + c / 64) :: b64char (c % 64) :: b64encodeNoPad rest
  | [a, b] => [b64char (a / 4), b64char (a % 4 * 16 + b / 16), b64char (b % 16 * 4)]
  | [a] => [b64char (a / 4), b64char (a % 4 * 16)]
  | [] => []

/-! ## `IndexFilter` -/

/-- `sys.maxsize` on the 64-bit CPython builds the program targets:
`2 ^ 63 - 1`. -/
def pymaxsize : Int := 9223372036854775807

/-- One stored `range` of `IndexFilter.filters`, as its `(start, stop)`
pair.  A singleton token `"a"` is stored as `range(a, -1)`, exactly as in
the source. -/
abbrev FilterEntry := Int × Int

/-- One token of the filter string, after space removal (`__init__` body
for a single `filter__`).  `Except.error ()` models the `ValueError`
raised by `int(...)` or by unpacking `filter__.split("-")` into two
names. -/
def parseToken (t : Str) : Except Unit FilterEntry :=
  if t.contains 45 then
    match splitOnCh 45 t with
    | [st, en] => do
      let a ← if st = [] then Except.ok (0 : Int) else
        match parseInt st with
        | some v => Except.ok v
        | none => Except.error ()
      let b ← if en = [] then Except.ok pymaxsize else
        match parseInt en with
        | some v => Except.ok v
        | none => Except.error ()
      Except.ok (a, b)
    | _ => Except.error ()
  else
    match parseInt t with
    | some v => Except.ok (v, -1)
    | none => Except.error ()

/-- The token list of `IndexFilter.__init__`: split the spec on commas,
delete every space (`str.replace(" ", "")`), drop tokens that are empty
after deletion (`filter(None, ...)`). -/
def tokensOf (s : Str) : List Str :=
  ((splitOnCh 44 s).map (fun t => t.filter (fun c => c ≠ 32))).filter (fun t => t ≠ [])

/-- The token loop of `IndexFilter.__init__`: parse every token in
order, the first bad token raising. -/
def parseTokens : List Str → Except Unit (List FilterEntry)
  | [] => Except.ok []
  | t :: ts => do
    let e ← parseToken t
    let rest ← parseTokens ts
    Except.ok (e :: rest)

/-- `IndexFilter.__init__` over the whole spec string. -/
def parseFilters (s : Str) : Except Unit (List FilterEntry) :=
  parseTokens (tokensOf s)

/-- Membership of an index in one stored entry, as tested by
`IndexFilter.__call__`: a stored `range(a, -1)` matches only `a`
(`filter_.stop == -1` branch); any other entry is Python
`index in range(start, stop)`. -/
def entryMatches (e : FilterEntry) (i : Int) : Bool :=
  if e.2 = -1 then i = e.1 else e.1 ≤ i && i < e.2

/-- `IndexFilter.__call__`: an empty filter list matches everything,
otherwise some entry must match. -/
def callFilter (fl : List FilterEntry) (i : Int) : Bool :=
  if fl = [] then true else fl.any (fun e => entryMatches e i)

/-- `IndexFilter.filter`: keep the elements whose 0-based position
matches (`itertools.compress(iterable, map(self, itertools.count()))`). -/
def filterByIndex (fl : List FilterEntry) (xs : List α) : List α :=
  (xs.enum.filter (fun p => callFilter fl (Int.ofNat p.1))).map (·.2)

/-! ## `IceReport.request` — the retrying gateway

The loop body of `IceReport.request` (lines 172–189): issue the request;
`response.raise_for_status()` raises `HTTPError` exactly for statuses in
400–599.  On 409 it prompts the credential-refresh collaborator, stores the
new cookie on the session and retries; on 429 it sleeps
`int(response.headers["Retry-After"])` seconds and retries; on any other
400–599 status it re-raises; a status outside 400–599 is returned.

The transport is scripted as the list of responses successive attempts
receive; the refresh collaborator as a stream of credentials (`input` never
fails).  The method/url/data triple is loop-invariant in the source and is
carried as an opaque `req` recorded on every attempt event. -/

/-- One HTTP response as the gateway observes it: the status code and the
already-parsed integer `Retry-After` header (only read on 429). -/
structure HResp where
  status : Nat
  retryAfter : Nat
deriving DecidableEq, Repr

/-- Observable events of one `request` call. -/
inductive GEv where
  /-- an attempt was issued, with this request and this session cookie -/
  | attempt (req : Nat) (cookie : Nat)
  /-- `time.sleep(secs)` -/
  | slept (secs : Nat)
  /-- the refresh collaborator produced `newCookie`, stored on the session -/
  | refreshed (newCookie : Nat)
deriving DecidableEq, Repr

/-- `IceReport.request` over a scripted transport.  `creds k` is the
credential the `k`-th refresh prompt returns; `ck` is the session cookie.
Returns `none` when the script runs out while the loop would continue
(the real loop is uncapped), otherwise the outcome (`Except.error s` for a
raised `HTTPError` with status `s`), the event trace and the final session
cookie. -/
def gwRequest (creds : Nat → Nat) (req : Nat) :
    List HResp → Nat → Nat → Option (Except Nat HResp × List GEv × Nat)
  | [], _, _ => none
  | r :: rest, k, ck =>
    if 400 ≤ r.status && r.status < 600 then
      if r.status = 409 then
        (gwRequest creds req rest (k + 1) (creds k)).map
          (fun o => (o.1, GEv.attempt req ck :: GEv.refreshed (creds k) :: o.2.1, o.2.2))
      else if r.status = 429 then
        (gwRequest creds req rest k ck).map
          (fun o => (o.1, GEv.attempt req ck :: GEv.slept r.retryAfter :: o.2.1, o.2.2))
      else some (Except.error r.status, [GEv.attempt req ck], ck)
    else some (Except.ok r, [GEv.attempt req ck], ck)

/-- The event trace and final refresh-index/cookie the gateway produces
while it works through a run of transient (409/429) responses. -/
def gwTransientTrace (creds : Nat → Nat) (req : Nat) :
    List HResp → Nat → Nat → List GEv × Nat × Nat
  | [], k, ck => ([], k, ck)
  | r :: rest, k, ck =>
    if r.status = 409 then
      let t := gwTransientTrace creds req rest (k + 1) (creds k)
      (GEv.attempt req ck :: GEv.refreshed (creds k) :: t.1, t.2)
    else
      let t := gwTransientTrace creds req rest k ck
      (GEv.attempt req ck :: GEv.slept r.retryAfter :: t.1, t.2)

/-! ## `IceReport.get_results` — the one-slot result cache

`get_results` is decorated `functools.lru_cache(1)`: at most the single
most recent `(market, time_period)` call is cached (the `self` argument is
part of the real key but a run uses a single `IceReport` instance). -/

/-- A result page: the `subheader` and the positional row tuples. -/
abbrev Page := Str × List (List Str)

/-- State of the memoised `get_results`: the one cache slot and the number
of network requests issued so far. -/
structure RC where
  slot : Option ((Str × Str) × Page)
  ncalls : Nat
deriving DecidableEq

/-- A fresh client: empty cache, no calls issued. -/
def rcEmpty : RC := ⟨none, 0⟩

/-- `get_results(market, time_period)` under `lru_cache(1)`: a hit on the
cached key returns the stored page with no network call; otherwise the
network is hit (`oracle`), the page returned and stored, evicting whatever
the slot held. -/
def cachedGet (oracle : Str → Str → Page) (rc : RC) (market tp : Str) : Page × RC :=
  match rc.slot with
  | some (k, v) =>
    if k = (market, tp) then (v, rc)
    else
      let v := oracle market tp
      (v, ⟨some ((market, tp), v), rc.ncalls + 1⟩)
  | none =>
    let v := oracle market tp
    (v, ⟨some ((market, tp), v), rc.ncalls + 1⟩)

/-! ## `IceReport.dump` — fragments and consolidation

Filesystem model: a finite association list of files (path → CSV rows,
a path being its list of components) plus the set of existing directories.
CSV writing/reading of a row list is modelled as the identity (the csv
round-trip), and `open(path, "w")` always succeeds in creating the file;
the injected `failAt` oracle makes `writer.writerows` fail for a path after
a prefix of the rows has reached the disk, modelling the write failures of
claim C4. -/

/-- A filesystem path, as its components. -/
abbrev FPath := List Str

/-- Componentwise: `d` is `p` itself or an ancestor directory of `p`. -/
def dirContains : FPath → FPath → Bool
  | [], _ => true
  | _, [] => false
  | a :: as_, b :: bs => a = b && dirContains as_ bs

/-- The filesystem: files with their row contents, and directories. -/
structure FS where
  files : List (FPath × List (List Str))
  dirs : List FPath
deriving DecidableEq

/-- `os.path.isfile`. -/
def FS.isFile (fs : FS) (p : FPath) : Bool := fs.files.any (fun f => f.1 = p)

/-- `os.path.isdir`. -/
def FS.isDir (fs : FS) (d : FPath) : Bool := fs.dirs.contains d

/-- Content of a file, if present. -/
def FS.read (fs : FS) (p : FPath) : Option (List (List Str)) :=
  (fs.files.find? (fun f => f.1 = p)).map (·.2)

/-- `open(p, "w")` + writes: replaces any previous file at `p`. -/
def FS.writeFile (fs : FS) (p : FPath) (rows : List (List Str)) : FS :=
  { fs with files := (p, rows) :: fs.files.filter (fun f => f.1 ≠ p) }

/-- `os.remove`. -/
def FS.removeFile (fs : FS) (p : FPath) : FS :=
  { fs with files := fs.files.filter (fun f => f.1 ≠ p) }

/-- `os.makedirs(d, exist_ok=True)`. -/
def FS.makedirs (fs : FS) (d : FPath) : FS :=
  { fs with dirs := if fs.dirs.contains d then fs.dirs else d :: fs.dirs }

/-- `shutil.rmtree(d)`: drop `d` and everything below it. -/
def FS.rmtree (fs : FS) (d : FPath) : FS :=
  { files := fs.files.filter (fun f => ¬ dirContains d f.1),
    dirs := fs.dirs.filter (fun p => ¬ dirContains d p) }

/-- Digit accumulator for `natStr`; the first argument is recursion fuel
(`n + 1` always suffices, as each step divides `n` by 10). -/
def natStrAux : Nat → Nat → Str → Str
  | 0, _, acc => acc
  | fuel + 1, n, acc =>
    if n < 10 then (48 + n % 10) :: acc
    else natStrAux fuel (n / 10) ((48 + n % 10) :: acc)

/-- Decimal digits of a natural number, most significant first, as
character codes. -/
def natStr (n : Nat) : Str := natStrAux (n + 1) n []

/-- `str(i)` for a Python int. -/
def intStr (i : Int) : Str :=
  if i < 0 then 45 :: natStr i.natAbs else natStr i.toNat

/-- The fragment-directory component `f"~{report_id}"`. -/
def tildeName (reportId : Int) : Str := 126 :: intStr reportId

/-- The consolidated-file name `f"{report_id}.csv"`. -/
def csvName (reportId : Int) : Str := intStr reportId ++ [46, 99, 115, 118]

/-- The fragment-file name `f"{encode_data(market)}.csv"`. -/
def fragName (market : Str) : Str := encode_data market ++ [46, 99, 115, 118]

/-- Does a file name end in `".csv"` (the `glob` pattern `*.csv`)? -/
def endsCsv (name : Str) : Bool :=
  decide ([46, 99, 115, 118] <:+ name)

/-- The log lines `dump` and its helpers print. -/
inductive LogEv where
  /-- `[~] market@tp` — fragment already present, market skipped -/
  | skip (market tp : Str)
  /-- `[+] market@tp -> path` — fragment written -/
  | wrote (market tp : Str) (path : FPath)
  /-- `[!] market@tp != subheader` — label mismatch, market skipped -/
  | mismatch (market tp subheader : Str)
  /-- `[!] exception` — a write failure, before the re-raise -/
  | writeErr (path : FPath)
  /-- `[<] path -> date` — a fragment consumed into the consolidated file -/
  | consumed (path : FPath) (date : Str)
  /-- `[+] report_id@date -> base_path` — one period consolidated -/
  | finished (reportId : Int) (date : Str) (path : FPath)
deriving DecidableEq

/-- The configuration a dump run carries (fields of `IceReport`). -/
structure Ctx where
  reportId : Int
  baseDir : Str
  marketFilter : List FilterEntry
  tpFilter : List FilterEntry
  columnFilter : List FilterEntry
deriving DecidableEq

/-- The loop state of one period of `dump`: the filesystem, the results
client, the period label `date` (`""` initially), the fragment directory
`temp_dir` (`""` initially, modelled as `none`), and the log. -/
structure St where
  fs : FS
  rc : RC
  date : Str
  tempDir : Option FPath
  log : List LogEv
deriving DecidableEq

/-- The body of `for market in self.market_filter.filter(markets)`
(lines 222–244).  `Except.error` carries the state at the moment the
write failure is re-raised.  `failAt path = some k` makes the CSV write to
`path` fail after `k` rows. -/
def processMarket (oracle : Str → Str → Page) (failAt : FPath → Option Nat)
    (ctx : Ctx) (tp : Str) (st : St) (market : Str) : Except St St :=
  let st1 :=
    if st.date = [] then
      let pr := cachedGet oracle st.rc market tp
      { st with
        rc := pr.2,
        date := pr.1.1,
        tempDir := some [ctx.baseDir, pr.1.1, tildeName ctx.reportId],
        fs := st.fs.makedirs [ctx.baseDir, pr.1.1, tildeName ctx.reportId] }
    else st
  let path := st1.tempDir.getD [] ++ [fragName market]
  if st1.fs.isFile path then
    Except.ok { st1 with log := st1.log ++ [LogEv.skip market tp] }
  else
    let pr := cachedGet oracle st1.rc market tp
    let st2 := { st1 with rc := pr.2 }
    if st2.date = pr.1.1 then
      let rows := pr.1.2.map (fun row => filterByIndex ctx.columnFilter row)
      match failAt path with
      | some k =>
        Except.error { st2 with
          fs := (st2.fs.writeFile path (rows.take k)).removeFile path,
          log := st2.log ++ [LogEv.writeErr path] }
      | none =>
        Except.ok { st2 with
          fs := st2.fs.writeFile path rows,
          log := st2.log ++ [LogEv.wrote market tp path] }
    else
      Except.ok { st2 with log := st2.log ++ [LogEv.mismatch market tp pr.1.1] }

/-- The market loop of one period; a raised write failure propagates. -/
def marketLoop (oracle : Str → Str → Page) (failAt : FPath → Option Nat)
    (ctx : Ctx) (tp : Str) : List Str → St → Except St St
  | [], st => Except.ok st
  | m :: ms, st =>
    match processMarket oracle failAt ctx tp st m with
    | Except.ok st' => marketLoop oracle failAt ctx tp ms st'
    | Except.error st' => Except.error st'

/-- Does the glob pattern `{d}/*.csv` match this file: an immediate child
of `d` whose name ends in `".csv"`? -/
def isFragOf (d : FPath) (f : FPath × List (List Str)) : Bool :=
  f.1.take d.length = d && f.1.length = d.length + 1 && endsCsv (f.1.getLast?.getD [])

/-- The fragment files `glob.glob(os.path.join(temp_dir, "*.csv"))`
returns: the immediate children of `d` named `*.csv`, in filesystem
order. -/
def fragmentsIn (fs : FS) (d : FPath) : List (FPath × List (List Str)) :=
  fs.files.filter (isFragOf d)

/-- Lines 246–259: open `base_path` fresh, append every fragment's rows,
log each fragment and the period, then `shutil.rmtree(temp_dir)`. -/
def consolidate (ctx : Ctx) (st : St) (d : FPath) : St :=
  let basePath := d.dropLast ++ [csvName ctx.reportId]
  let fs1 := st.fs.writeFile basePath []
  let frags := fragmentsIn fs1 d
  let fs2 := fs1.writeFile basePath (frags.map (·.2)).flatten
  { st with
    fs := fs2.rmtree d,
    log := st.log ++ frags.map (fun f => LogEv.consumed f.1 st.date) ++
      [LogEv.finished ctx.reportId st.date (basePath : FPath)] }

/-- One iteration of `for time_period in self.time_period_filter.filter(...)`:
reset `date`/`temp_dir`, run the market loop, then consolidate when a
fragment directory was created and still exists. -/
def dumpPeriod (oracle : Str → Str → Page) (failAt : FPath → Option Nat)
    (ctx : Ctx) (markets : List Str) (tp : Str)
    (fs : FS) (rc : RC) (log : List LogEv) : Except St St :=
  (marketLoop oracle failAt ctx tp (filterByIndex ctx.marketFilter markets)
      ⟨fs, rc, [], none, log⟩).map
    (fun st =>
      match st.tempDir with
      | some d => if st.fs.isDir d then consolidate ctx st d else st
      | none => st)

/-- `IceReport.dump` without the criteria fetch: loop `dumpPeriod` over
the filtered time periods. -/
def dump (oracle : Str → Str → Page) (failAt : FPath → Option Nat)
    (ctx : Ctx) (markets : List Str) : List Str → St → Except St St
  | [], st => Except.ok st
  | tp :: tps, st =>
    match dumpPeriod oracle failAt ctx markets tp st.fs st.rc st.log with
    | Except.ok st' => dump oracle failAt ctx markets tps st'
    | Except.error st' => Except.error st'

/-- `IceReport.__init__` filter parsing, in source order (market, time
period, column); the first `ValueError` aborts construction before the
`Session` exists. -/
def iceReportInit (marketF tpF colF : Str) :
    Except Unit (List FilterEntry × List FilterEntry × List FilterEntry) := do
  let m ← parseFilters marketF
  let t ← parseFilters tpF
  let c ← parseFilters colF
  Except.ok (m, t, c)

/-- A whole run: construct the report (parsing the three filters), then
fetch criteria (one network request) and dump.  Returns the run outcome
(`none` when construction raised `ValueError`) and the total number of
network requests issued. -/
def runReport (oracle : Str → Str → Page) (failAt : FPath → Option Nat)
    (reportId : Int) (baseDir : Str) (marketF tpF colF : Str)
    (markets tps : List Str) (fs : FS) : Option (Except St St) × Nat :=
  match iceReportInit marketF tpF colF with
  | Except.error _ => (none, 0)
  | Except.ok (mf, tf, cf) =>
    let ctx : Ctx := ⟨reportId, baseDir, mf, tf, cf⟩
    let r := dump oracle failAt ctx markets (filterByIndex tf tps) ⟨fs, rcEmpty, [], none, []⟩
    let ncalls := match r with
      | Except.ok st => st.rc.ncalls
      | Except.error st => st.rc.ncalls
    (some r, 1 + ncalls)

/-! ## Lemmas about splitting and tokenization -/

theorem splitOnCh_ne_nil (sep : Nat) (s : Str) : splitOnCh sep s ≠ [] := by
  cases s with
  | nil => simp [splitOnCh]
  | cons c cs =>
    simp only [splitOnCh]
    rcases h : splitOnCh sep cs with _ | ⟨t, ts⟩ <;> by_cases hc : c = sep <;> simp [hc]

theorem splitOnCh_filter_ne (sep drop : Nat) (hne : drop ≠ sep) (s : Str) :
    splitOnCh sep (s.filter (fun c => c ≠ drop)) =
      (splitOnCh sep s).map (fun t => t.filter (fun c => c ≠ drop)) := by
  induction s with
  | nil => simp [splitOnCh]
  | cons c cs ih =>
    rcases h : splitOnCh sep cs with _ | ⟨t, ts⟩
    · exact absurd h (splitOnCh_ne_nil sep cs)
    · by_cases hd : c = drop
      · have hstep : (c :: cs).filter (fun x => decide (x ≠ drop)) =
            cs.filter (fun x => decide (x ≠ drop)) := by simp [hd]
        rw [hstep, ih, h]
        have hcsep : c ≠ sep := by rw [hd]; exact hne
        simp [splitOnCh, h, hcsep, hd, hne]
      · have hstep : (c :: cs).filter (fun c => decide (c ≠ drop)) =
            c :: cs.filter (fun c => decide (c ≠ drop)) := by simp [hd]
        rw [hstep]
        by_cases hs : c = sep
        · subst hs
          simp only [splitOnCh]
          rw [ih, h]
          simp
        · simp only [splitOnCh]
          rw [ih, h]
          simp [hs, hd]

theorem splitOnCh_append_sep (sep : Nat) (s : Str) :
    splitOnCh sep (s ++ [sep]) = splitOnCh sep s ++ [[]] := by
  induction s with
  | nil => simp [splitOnCh]
  | cons c cs ih =>
    rcases h : splitOnCh sep cs with _ | ⟨t, ts⟩
    · exact absurd h (splitOnCh_ne_nil sep cs)
    · by_cases hs : c = sep <;> simp_all [splitOnCh, List.cons_append]

theorem tokensOf_filter_spaces (s : Str) : tokensOf (s.filter (fun c => c ≠ 32)) = tokensOf s := by
  unfold tokensOf
  rw [splitOnCh_filter_ne 44 32 (by decide) s]
  congr 1
  rw [List.map_map]
  apply List.map_congr_left
  intro t _
  simp [Function.comp, List.filter_filter]

theorem tokensOf_append_comma (s : Str) : tokensOf (s ++ [44]) = tokensOf s := by
  unfold tokensOf
  rw [splitOnCh_append_sep 44 s]
  simp

/-! ## Claim theorems for the `IndexFilter` component -/

/-- C2 (amended): the matcher semantics of `IndexFilter`.  An index
matches iff the filter set is empty or some stored entry matches it;
`"2-5"` matches exactly `2 ≤ i < 5`; `"-5"` matches exactly `0 ≤ i < 5`;
`"3"` matches only `3`; but `"2-"` is stored as `range(2, sys.maxsize)`,
so it matches exactly `2 ≤ i < 2^63 - 1`, not every `i ≥ 2`. -/
theorem indexFilter_matches_semantics :
    (∀ (fl : List FilterEntry) (i : Int),
      callFilter fl i = true ↔ fl = [] ∨ ∃ e ∈ fl, entryMatches e i = true)
    ∧ parseFilters [] = Except.ok []
    ∧ (∀ i : Int, callFilter [] i = true)
    ∧ parseFilters [50, 45, 53] = Except.ok [(2, 5)]
    ∧ (∀ i : Int, callFilter [(2, 5)] i = true ↔ 2 ≤ i ∧ i < 5)
    ∧ parseFilters [50, 45] = Except.ok [(2, pymaxsize)]
    ∧ (∀ i : Int, callFilter [(2, pymaxsize)] i = true ↔ 2 ≤ i ∧ i < pymaxsize)
    ∧ parseFilters [45, 53] = Except.ok [(0, 5)]
    ∧ (∀ i : Int, callFilter [(0, 5)] i = true ↔ 0 ≤ i ∧ i < 5)
    ∧ parseFilters [51] = Except.ok [(3, -1)]
    ∧ (∀ i : Int, callFilter [(3, -1)] i = true ↔ i = 3) := by
  refine ⟨?_, by decide, ?_, by decide, ?_, by decide, ?_, by decide, ?_, by decide, ?_⟩
  · intro fl i
    by_cases h : fl = [] <;> simp [callFilter, h]
  · intro i; simp [callFilter]
  · intro i; simp [callFilter, entryMatches, pymaxsize]
  · intro i; simp [callFilter, entryMatches, pymaxsize]
  · intro i; simp [callFilter, entryMatches, pymaxsize]
  · intro i; simp [callFilter, entryMatches]

/-- C2 counterexample: the spec `"2-"` does not match every index
`i ≥ 2` — the code stores `range(2, sys.maxsize)`, and the index
`sys.maxsize = 2^63 - 1` (which is `≥ 2`) does not match. -/
theorem indexFilter_unbounded_above_counterexample :
    parseFilters [50, 45] = Except.ok [(2, pymaxsize)]
    ∧ (2 : Int) ≤ pymaxsize
    ∧ callFilter [(2, pymaxsize)] pymaxsize = false := by
  refine ⟨by decide, by decide, ?_⟩
  simp [callFilter, entryMatches, pymaxsize]

/-- C10: a bounded token whose bounds are inverted (`"5-2"`) parses
without error into `range(5, 2)`; a bounded entry with `stop ≤ start`
(and `stop ≠ -1`, as for every parsed bounded token) matches no index,
and a filter consisting only of such entries is non-empty, so it matches
nothing rather than falling back to match-all. -/
theorem inverted_range_matches_nothing :
    parseFilters [53, 45, 50] = Except.ok [(5, 2)]
    ∧ (∀ a b : Int, b ≤ a → b ≠ -1 → ∀ i : Int, entryMatches (a, b) i = false)
    ∧ ([(5, 2)] : List FilterEntry) ≠ []
    ∧ (∀ i : Int, callFilter [(5, 2)] i = false) := by
  refine ⟨by decide, ?_, by decide, ?_⟩
  · intro a b hba hb i
    simp only [entryMatches, hb, if_false]
    have h2 : ¬ (a ≤ i ∧ i < b) := by omega
    by_cases h1 : a ≤ i
    · simp [h1]; omega
    · simp [h1]
  · intro i
    simp only [callFilter, entryMatches]
    norm_num
    omega

/-- Witness for C10 at `a = 5`, `b = 2`, `i = 3`. -/
theorem inverted_range_matches_nothing_witness : entryMatches (5, 2) 3 = false :=
  inverted_range_matches_nothing.2.1 5 2 (by decide) (by decide) 3

/-- C8 (amended): tokenization splits the spec on commas, removes every
space character from each token (interior spaces included; other
whitespace is untouched), and ignores tokens that are empty after space
removal.  Consequently parsing is unchanged by deleting spaces or by a
trailing comma, and `"1 2"` parses as the singleton `12`. -/
theorem tokenization_space_removal :
    (∀ s : Str, parseFilters (s.filter (fun c => c ≠ 32)) = parseFilters s)
    ∧ (∀ s : Str, parseFilters (s ++ [44]) = parseFilters s)
    ∧ parseFilters [49, 32, 50] = Except.ok [(12, -1)] := by
  refine ⟨?_, ?_, by decide⟩
  · intro s; unfold parseFilters; rw [tokensOf_filter_spaces]
  · intro s; unfold parseFilters; rw [tokensOf_append_comma]

/-- C8 counterexample: on the spec `"1 2"` the code removes the interior
space and parses the singleton `12`; under the claim (interior of each
token left unchanged) the token `"1 2"` would not be an integer and
parsing would fail. -/
theorem tokenization_interior_space_counterexample :
    parseFilters [49, 32, 50] = Except.ok [(12, -1)]
    ∧ tokensOf [49, 32, 50] = [[49, 50]]
    ∧ callFilter [(12, -1)] 12 = true := by
  refine ⟨by decide, by decide, by decide⟩

/-! ## Base64 round-trip (C9) -/

theorem b64char_ne_61 (v : Nat) : b64char v ≠ 61 := by
  unfold b64char
  split_ifs <;> omega

theorem b64inv_b64char_fin : ∀ v : Fin 64, b64inv (b64char v.val) = v.val := by decide

theorem b64inv_b64char (v : Nat) (h : v < 64) : b64inv (b64char v) = v :=
  b64inv_b64char_fin ⟨v, h⟩

theorem rstripEq_append_replicate (xs : List Nat) (k : Nat) :
    rstripEq (xs ++ List.replicate k 61) = rstripEq xs := by
  unfold rstripEq
  rw [List.reverse_append, List.reverse_replicate]
  congr 1
  induction k with
  | zero => simp
  | succ k ih =>
    rw [List.replicate_succ, List.cons_append, List.dropWhile_cons, if_pos (by simp)]
    exact ih

theorem rstripEq_no61 (xs : List Nat) (h : 61 ∉ xs) : rstripEq xs = xs := by
  unfold rstripEq
  rcases hrev : xs.reverse with _ | ⟨a, rest⟩
  · simp_all
  · have ha : a ∈ xs := by
      rw [← List.mem_reverse, hrev]
      simp
    have hne : ¬ a = 61 := fun he => h (he ▸ ha)
    rw [List.dropWhile_cons, if_neg (by simpa using hne), ← hrev, List.reverse_reverse]

theorem rstripEq_append_of_mem (xs ys : List Nat) (c : Nat) (hc : c ∈ ys) (h61 : c ≠ 61) :
    rstripEq (xs ++ ys) = xs ++ rstripEq ys := by
  unfold rstripEq
  rw [List.reverse_append, List.dropWhile_append]
  have hne : (ys.reverse.dropWhile (fun x => x = 61)) ≠ [] := by
    rw [Ne, List.dropWhile_eq_nil_iff]
    push_neg
    exact ⟨c, by simpa using hc, by simpa using h61⟩
  rw [if_neg (by simpa using hne)]
  rw [List.reverse_append, List.reverse_reverse]

theorem not61_noPad : ∀ l : List Nat, 61 ∉ b64encodeNoPad l
  | [] => by simp [b64encodeNoPad]
  | [a] => by
    simp [b64encodeNoPad]
    exact ⟨fun h => b64char_ne_61 _ h.symm, fun h => b64char_ne_61 _ h.symm⟩
  | [a, b] => by
    simp [b64encodeNoPad]
    refine ⟨fun h => b64char_ne_61 _ h.symm, fun h => b64char_ne_61 _ h.symm,
      fun h => b64char_ne_61 _ h.symm⟩
  | a :: b :: c :: rest => by
    simp only [b64encodeNoPad, List.mem_cons]
    push_neg
    refine ⟨fun h => b64char_ne_61 _ h.symm, fun h => b64char_ne_61 _ h.symm,
      fun h => b64char_ne_61 _ h.symm, fun h => b64char_ne_61 _ h.symm, not61_noPad rest⟩

theorem encode_data_eq_noPad : ∀ l : List Nat, encode_data l = b64encodeNoPad l
  | [] => rfl
  | [a] => by
    show rstripEq ([b64char (a / 4), b64char (a % 4 * 16)] ++ List.replicate 2 61) = _
    rw [rstripEq_append_replicate, rstripEq_no61]
    · rfl
    · intro h
      simp at h
      rcases h with h | h <;> exact b64char_ne_61 _ h.symm
  | [a, b] => by
    show rstripEq ([b64char (a / 4), b64char (a % 4 * 16 + b / 16), b64char (b % 16 * 4)] ++
      List.replicate 1 61) = _
    rw [rstripEq_append_replicate, rstripEq_no61]
    · rfl
    · intro h
      simp at h
      rcases h with h | h | h <;> exact b64char_ne_61 _ h.symm
  | a :: b :: c :: rest => by
    rcases hrest : rest with _ | ⟨x, xs⟩
    · show rstripEq ([b64char (a / 4), b64char (a % 4 * 16 + b / 16),
        b64char (b % 16 * 4 + c / 64), b64char (c % 64)] ++ b64encode []) = _
      rw [show b64encode [] = [] from rfl, List.append_nil, rstripEq_no61]
      · rfl
      · intro h
        simp at h
        rcases h with h | h | h | h <;> exact b64char_ne_61 _ h.symm
    · show rstripEq ([b64char (a / 4), b64char (a % 4 * 16 + b / 16),
        b64char (b % 16 * 4 + c / 64), b64char (c % 64)] ++ b64encode (x :: xs)) = _
      have hmem : b64char (x / 4) ∈ b64encode (x :: xs) := by
        rcases xs with _ | ⟨y, _ | ⟨z, ys⟩⟩ <;> simp [b64encode]
      rw [rstripEq_append_of_mem _ _ _ hmem (b64char_ne_61 _)]
      have := encode_data_eq_noPad (x :: xs)
      unfold encode_data at this
      rw [this]
      rfl

theorem decode_noPad : ∀ l : List Nat, (∀ x ∈ l, x < 256) → ∀ k : Nat,
    (b64encodeNoPad l ++ List.replicate k 61).length % 4 = 0 →
    b64decodeLenient (b64encodeNoPad l ++ List.replicate k 61) = l
  | [], _, k, hk => by
    simp only [b64encodeNoPad, List.nil_append, List.length_replicate] at hk ⊢
    rcases k with _ | _ | _ | _ | k'
    · rfl
    · simp at hk
    · simp at hk
    · simp at hk
    · simp [List.replicate_succ, b64decodeLenient]
  | [a], hl, k, hk => by
    have ha : a < 256 := hl a (by simp)
    simp only [b64encodeNoPad, List.length_append, List.length_replicate,
      List.length_cons, List.length_nil] at hk
    obtain ⟨k', rfl⟩ : ∃ k', k = k' + 2 := ⟨k - 2, by omega⟩
    have h1 := b64inv_b64char (a / 4) (by omega)
    have h2 := b64inv_b64char (a % 4 * 16) (by omega)
    show b64decodeLenient ([b64char (a / 4), b64char (a % 4 * 16)] ++
      List.replicate (k' + 2) 61) = [a]
    simp only [List.replicate_succ, List.cons_append, List.nil_append, b64decodeLenient]
    simp only [b64char_ne_61, h1, h2]
    simp
    omega
  | [a, b], hl, k, hk => by
    have ha : a < 256 := hl a (by simp)
    have hb : b < 256 := hl b (by simp)
    simp only [b64encodeNoPad, List.length_append, List.length_replicate,
      List.length_cons, List.length_nil] at hk
    obtain ⟨k', rfl⟩ : ∃ k', k = k' + 1 := ⟨k - 1, by omega⟩
    have h1 := b64inv_b64char (a / 4) (by omega)
    have h2 := b64inv_b64char (a % 4 * 16 + b / 16) (by omega)
    have h3 := b64inv_b64char (b % 16 * 4) (by omega)
    show b64decodeLenient
      ([b64char (a / 4), b64char (a % 4 * 16 + b / 16), b64char (b % 16 * 4)] ++
        List.replicate (k' + 1) 61) = [a, b]
    simp only [List.replicate_succ, List.cons_append, List.nil_append, b64decodeLenient]
    simp only [b64char_ne_61, h1, h2, h3]
    simp
    omega
  | a :: b :: c :: rest, hl, k, hk => by
    have ha : a < 256 := hl a (by simp)
    have hb : b < 256 := hl b (by simp)
    have hc : c < 256 := hl c (by simp)
    have h1 := b64inv_b64char (a / 4) (by omega)
    have h2 := b64inv_b64char (a % 4 * 16 + b / 16) (by omega)
    have h3 := b64inv_b64char (b % 16 * 4 + c / 64) (by omega)
    have h4 := b64inv_b64char (c % 64) (by omega)
    have hk' : (b64encodeNoPad rest ++ List.replicate k 61).length % 4 = 0 := by
      have hstep : b64encodeNoPad (a :: b :: c :: rest) =
          b64char (a / 4) :: b64char (a % 4 * 16 + b / 16) ::
            b64char (b % 16 * 4 + c / 64) :: b64char (c % 64) :: b64encodeNoPad rest := rfl
      rw [hstep] at hk
      simp only [List.length_append, List.length_cons, List.length_replicate] at hk ⊢
      omega
    have ih := decode_noPad rest (fun y hy => hl y (by simp [hy])) k hk'
    show b64decodeLenient
      ((b64char (a / 4) :: b64char (a % 4 * 16 + b / 16) ::
        b64char (b % 16 * 4 + c / 64) :: b64char (c % 64) :: b64encodeNoPad rest) ++
        List.replicate k 61) = a :: b :: c :: rest
    simp only [List.cons_append, b64decodeLenient]
    simp only [b64char_ne_61, h1, h2, h3, h4]
    simp only [List.append_eq]
    rw [if_neg (by simp), ih]
    have e1 : a / 4 * 4 + (a % 4 * 16 + b / 16) / 16 = a := by omega
    have e2 : (a % 4 * 16 + b / 16) % 16 * 16 + (b % 16 * 4 + c / 64) / 4 = b := by omega
    have e3 : (b % 16 * 4 + c / 64) % 4 * 64 + c % 64 = c := by omega
    rw [e1, e2, e3]
    simp

/-- C9: the padding-free URL-safe base64 filename encoding is reversible:
for every byte string, `encode_data` contains no `'='` padding character
and `decode_data (encode_data s) = s`.  (UTF-8 encoding of the Python
`str` values is injective, so this gives the claim for every string.) -/
theorem encode_decode_roundtrip (l : List Nat) (hl : ∀ x ∈ l, x < 256) :
    61 ∉ encode_data l ∧ decode_data (encode_data l) = l := by
  rw [encode_data_eq_noPad]
  refine ⟨not61_noPad l, ?_⟩
  unfold decode_data
  refine decode_noPad l hl _ ?_
  rw [List.length_append, List.length_replicate]
  omega

/-- Witness for C9 at the bytes of `"hi"`. -/
theorem encode_decode_roundtrip_witness :
    61 ∉ encode_data [104, 105] ∧ decode_data (encode_data [104, 105]) = [104, 105] :=
  encode_decode_roundtrip [104, 105] (by decide)

/-! ## Parse-failure characterisation (C7) -/

/-- The amended failure condition for a single (space-stripped, nonempty)
token, following the amended claim's words: a token with no hyphen that is
not an integer, a token with exactly one hyphen one of whose non-empty
sides is not an integer, or a token with two or more hyphens. -/
def specTokenBad (t : Str) : Bool :=
  (t.count 45 = 0 && (parseInt t).isNone) ||
  (t.count 45 = 1 &&
    ((!((splitOnCh 45 t).getD 0 [] = []) && (parseInt ((splitOnCh 45 t).getD 0 [])).isNone) ||
     (!((splitOnCh 45 t).getD 1 [] = []) && (parseInt ((splitOnCh 45 t).getD 1 [])).isNone))) ||
  (2 ≤ t.count 45)

theorem splitOnCh_length (sep : Nat) (t : Str) :
    (splitOnCh sep t).length = t.count sep + 1 := by
  induction t with
  | nil => simp [splitOnCh]
  | cons c cs ih =>
    rcases h : splitOnCh sep cs with _ | ⟨x, xs⟩
    · exact absurd h (splitOnCh_ne_nil sep cs)
    · by_cases hs : c = sep <;> simp_all [splitOnCh, List.count_cons]

theorem contains_eq_count_ne (t : Str) (c : Nat) :
    t.contains c = true ↔ t.count c ≠ 0 := by
  rw [List.contains_eq_any_beq]
  simp [List.any_eq_true, List.count_eq_zero]

theorem parseToken_isOk (t : Str) : (parseToken t).isOk = !specTokenBad t := by
  by_cases hc : t.contains 45 = true
  case neg =>
    have hcount : t.count 45 = 0 := by
      by_contra hne
      exact hc ((contains_eq_count_ne t 45).mpr hne)
    unfold parseToken specTokenBad
    rw [if_neg hc]
    rw [hcount]
    cases parseInt t <;> simp [Except.isOk]
  case pos =>
    have hcount : t.count 45 ≠ 0 := (contains_eq_count_ne t 45).mp hc
    by_cases h1 : t.count 45 = 1
    · have hlen : (splitOnCh 45 t).length = 2 := by rw [splitOnCh_length, h1]
      obtain ⟨st, en, hsplit⟩ := List.length_eq_two.mp hlen
      unfold parseToken specTokenBad
      rw [if_pos hc, hsplit, h1]
      by_cases hst : st = []
      · by_cases hen : en = []
        · simp [hst, hen, Except.isOk]
        · cases hpe : parseInt en <;>
            simp [hst, hen, hpe, Except.isOk, Except.bind]
      · cases hps : parseInt st
        · simp [hst, hps, Except.isOk, Except.bind]
        · by_cases hen : en = []
          · simp [hst, hen, hps, Except.isOk, Except.bind]
          · cases hpe : parseInt en <;>
              simp [hst, hen, hps, hpe, Except.isOk, Except.bind]
    · have h2 : 2 ≤ t.count 45 := by omega
      have hlen : 3 ≤ (splitOnCh 45 t).length := by rw [splitOnCh_length]; omega
      rcases hsplit : splitOnCh 45 t with _ | ⟨x, _ | ⟨y, _ | ⟨z, rest⟩⟩⟩ <;>
        rw [hsplit] at hlen <;> simp at hlen
      unfold parseToken specTokenBad
      rw [if_pos hc, hsplit]
      simp [h2]

theorem parseTokens_isOk (l : List Str) :
    (parseTokens l).isOk = l.all (fun t => (parseToken t).isOk) := by
  induction l with
  | nil => simp [parseTokens, Except.isOk]
  | cons t ts ih =>
    cases hpt : parseToken t
    · simp [parseTokens, hpt, Except.isOk, Except.bind]
    · cases hts : parseTokens ts <;>
        simp_all [parseTokens, hpt, Except.isOk, Except.bind]

/-- C7 (amended): filter parsing fails with `ValueError` (the spec's
`ParseError`) exactly when some token — after space removal, empty tokens
ignored — has no hyphen and is not an integer, or has exactly one hyphen
and a non-empty side that is not an integer, or contains two or more
hyphens; and when construction fails this way, the run performs no network
activity at all. -/
theorem parse_error_exactly :
    (∀ s : Str, (parseFilters s).isOk = false ↔ ∃ t ∈ tokensOf s, specTokenBad t = true)
    ∧ (∀ (oracle : Str → Str → Page) (failAt : FPath → Option Nat) (reportId : Int)
        (baseDir : Str) (mF tF cF : Str) (markets tps : List Str) (fs : FS),
        (iceReportInit mF tF cF).isOk = false →
        runReport oracle failAt reportId baseDir mF tF cF markets tps fs = (none, 0)) := by
  constructor
  · intro s
    unfold parseFilters
    rw [parseTokens_isOk]
    constructor
    · intro h
      rcases List.all_eq_false.mp h with ⟨t, ht, hbad⟩
      rw [parseToken_isOk] at hbad
      refine ⟨t, ht, ?_⟩
      revert hbad
      cases specTokenBad t <;> simp
    · intro h
      rcases h with ⟨t, ht, hbad⟩
      rw [List.all_eq_false]
      refine ⟨t, ht, ?_⟩
      rw [parseToken_isOk, hbad]
      simp
  · intro oracle failAt reportId baseDir mF tF cF markets tps fs h
    unfold runReport
    cases hinit : iceReportInit mF tF cF
    · rfl
    · rw [hinit] at h
      simp [Except.isOk] at h

/-- C7 counterexample: under the claim's condition the token `"1-2-3"`
should not fail (all its non-empty hyphen-separated parts are integers),
yet parsing raises: the two-name unpacking of `"1-2-3".split("-")` fails. -/
theorem parse_error_counterexample :
    (parseFilters [49, 45, 50, 45, 51]).isOk = false
    ∧ (splitOnCh 45 [49, 45, 50, 45, 51]).all
        (fun p => p = [] || (parseInt p).isSome) = true := by
  exact ⟨by decide, by decide⟩

/-- Witness for C7 at a concrete failing spec (`"x"`). -/
theorem parse_error_exactly_witness :
    runReport (fun _ _ => ([], [])) (fun _ => none) 1 [] [120] [48] [45] [] [] ⟨[], []⟩ =
      (none, 0) :=
  parse_error_exactly.2 (fun _ _ => ([], [])) (fun _ => none) 1 [] [120] [48] [45] [] []
    ⟨[], []⟩ (by decide)

/-! ## Gateway retry behaviour (C1) -/

/-- Is this event a `time.sleep`? -/
def GEv.isSlept : GEv → Bool
  | GEv.slept _ => true
  | _ => false

/-- Is this event a credential refresh? -/
def GEv.isRefreshed : GEv → Bool
  | GEv.refreshed _ => true
  | _ => false

theorem gwRequest_transient (creds : Nat → Nat) (req : Nat) (pre : List HResp) :
    ∀ (k ck : Nat), (∀ x ∈ pre, x.status = 409 ∨ x.status = 429) → ∀ rest : List HResp,
      gwRequest creds req (pre ++ rest) k ck =
        (gwRequest creds req rest (gwTransientTrace creds req pre k ck).2.1
            (gwTransientTrace creds req pre k ck).2.2).map
          (fun o => (o.1, (gwTransientTrace creds req pre k ck).1 ++ o.2.1, o.2.2)) := by
  induction pre with
  | nil =>
    intro k ck _ rest
    simp only [List.nil_append, gwTransientTrace]
    cases gwRequest creds req rest k ck <;> simp
  | cons r pre ih =>
    intro k ck h rest
    have hr := h r (by simp)
    have hpre : ∀ x ∈ pre, x.status = 409 ∨ x.status = 429 := fun x hx => h x (by simp [hx])
    have h400 : (400 ≤ r.status && r.status < 600) = true := by
      rcases hr with h9 | h9 <;> rw [h9] <;> decide
    rcases hr with h9 | h9
    · simp only [List.cons_append, gwRequest, gwTransientTrace, h9, List.append_eq]
      rw [ih (k + 1) (creds k) hpre rest, Option.map_map]
      congr 1
    · simp only [List.cons_append, gwRequest, gwTransientTrace, h9, List.append_eq]
      norm_num
      rw [ih k ck hpre rest, Option.map_map]
      congr 1

theorem gwTransientTrace_filter_slept (creds : Nat → Nat) (req : Nat) (pre : List HResp) :
    ∀ (k ck : Nat), (∀ x ∈ pre, x.status = 409 ∨ x.status = 429) →
      (gwTransientTrace creds req pre k ck).1.filter GEv.isSlept =
        (pre.filter (fun x => x.status = 429)).map (fun x => GEv.slept x.retryAfter) := by
  induction pre with
  | nil => intro k ck _; simp [gwTransientTrace]
  | cons r pre ih =>
    intro k ck h
    have hr := h r (by simp)
    have hpre : ∀ x ∈ pre, x.status = 409 ∨ x.status = 429 := fun x hx => h x (by simp [hx])
    rcases hr with h9 | h9
    · have hne : ¬ r.status = 429 := by rw [h9]; decide
      simp only [gwTransientTrace]
      rw [if_pos h9]
      simp [List.filter_cons, GEv.isSlept, hne, ih (k + 1) (creds k) hpre]
    · have hne9 : ¬ r.status = 409 := by rw [h9]; decide
      simp only [gwTransientTrace]
      rw [if_neg hne9]
      simp [List.filter_cons, GEv.isSlept, h9, ih k ck hpre]

theorem gwTransientTrace_count_refreshed (creds : Nat → Nat) (req : Nat) (pre : List HResp) :
    ∀ (k ck : Nat), (∀ x ∈ pre, x.status = 409 ∨ x.status = 429) →
      (gwTransientTrace creds req pre k ck).1.countP GEv.isRefreshed =
        pre.countP (fun x => x.status = 409) := by
  induction pre with
  | nil => intro k ck _; simp [gwTransientTrace]
  | cons r pre ih =>
    intro k ck h
    have hr := h r (by simp)
    have hpre : ∀ x ∈ pre, x.status = 409 ∨ x.status = 429 := fun x hx => h x (by simp [hx])
    rcases hr with h9 | h9
    · simp only [gwTransientTrace]
      rw [if_pos h9]
      simp [List.countP_cons, GEv.isRefreshed, h9, ih (k + 1) (creds k) hpre]
    · have hne9 : ¬ r.status = 409 := by rw [h9]; decide
      simp only [gwTransientTrace]
      rw [if_neg hne9]
      simp [List.countP_cons, GEv.isRefreshed, hne9, ih k ck hpre]

theorem gwTransientTrace_events_shape (creds : Nat → Nat) (req : Nat) (pre : List HResp) :
    ∀ (k ck : Nat), ∀ e ∈ (gwTransientTrace creds req pre k ck).1,
      (∃ c, e = GEv.attempt req c) ∨ (∃ n, e = GEv.slept n) ∨ (∃ c, e = GEv.refreshed c) := by
  induction pre with
  | nil => intro k ck e he; simp [gwTransientTrace] at he
  | cons r pre ih =>
    intro k ck e he
    by_cases h9 : r.status = 409
    · simp only [gwTransientTrace] at he
      rw [if_pos h9] at he
      simp only [List.mem_cons] at he
      rcases he with rfl | rfl | he
      · exact Or.inl ⟨ck, rfl⟩
      · exact Or.inr (Or.inr ⟨creds k, rfl⟩)
      · exact ih (k + 1) (creds k) e he
    · simp only [gwTransientTrace] at he
      rw [if_neg h9] at he
      simp only [List.mem_cons] at he
      rcases he with rfl | rfl | he
      · exact Or.inl ⟨ck, rfl⟩
      · exact Or.inr (Or.inl ⟨r.retryAfter, rfl⟩)
      · exact ih k ck e he

/-- C1 (amended): the gateway loop recovers 409 and 429 internally with no
iteration cap: through any finite run of transient responses it sleeps
exactly the `Retry-After` value of each 429 (in order), performs exactly
one credential refresh per 409 (the refreshed credential becoming the
session cookie for every later attempt of the same request), and stops at
the first non-transient response — raising immediately, without any
further attempt, when its status is in 400–599, and returning it as
success otherwise (any status outside 400–599, not only 2xx); a transient
status never surfaces as the raised error. -/
theorem request_transient_recovery (creds : Nat → Nat) (req : Nat) (pre : List HResp)
    (r : HResp) (post : List HResp) (k ck : Nat)
    (hpre : ∀ x ∈ pre, x.status = 409 ∨ x.status = 429)
    (h409 : r.status ≠ 409) (h429 : r.status ≠ 429) :
    gwRequest creds req (pre ++ r :: post) k ck =
      some ((if 400 ≤ r.status ∧ r.status < 600 then Except.error r.status else Except.ok r),
        (gwTransientTrace creds req pre k ck).1 ++
          [GEv.attempt req (gwTransientTrace creds req pre k ck).2.2],
        (gwTransientTrace creds req pre k ck).2.2)
    ∧ (gwTransientTrace creds req pre k ck).1.filter GEv.isSlept =
        (pre.filter (fun x => x.status = 429)).map (fun x => GEv.slept x.retryAfter)
    ∧ (gwTransientTrace creds req pre k ck).1.countP GEv.isRefreshed =
        pre.countP (fun x => x.status = 409)
    ∧ (∀ e ∈ (gwTransientTrace creds req pre k ck).1,
        (∃ c, e = GEv.attempt req c) ∨ (∃ n, e = GEv.slept n) ∨ (∃ c, e = GEv.refreshed c))
    ∧ (∀ (out : Except Nat HResp) (evs : List GEv) (ckf : Nat),
        gwRequest creds req (pre ++ r :: post) k ck = some (out, evs, ckf) →
        ∀ s : Nat, out = Except.error s → s ≠ 409 ∧ s ≠ 429) := by
  have hmain : gwRequest creds req (pre ++ r :: post) k ck =
      some ((if 400 ≤ r.status ∧ r.status < 600 then Except.error r.status else Except.ok r),
        (gwTransientTrace creds req pre k ck).1 ++
          [GEv.attempt req (gwTransientTrace creds req pre k ck).2.2],
        (gwTransientTrace creds req pre k ck).2.2) := by
    rw [gwRequest_transient creds req pre k ck hpre (r :: post)]
    by_cases h4 : 400 ≤ r.status ∧ r.status < 600
    · have hb : (400 ≤ r.status && r.status < 600) = true := by
        simp [h4.1, h4.2]
      simp only [gwRequest]
      rw [if_pos hb, if_neg h409, if_neg h429, if_pos h4]
      simp
    · have hb : ¬ (400 ≤ r.status && r.status < 600) = true := by
        simp only [Bool.and_eq_true, decide_eq_true_eq]
        exact fun hc => h4 ⟨hc.1, hc.2⟩
      simp only [gwRequest]
      rw [if_neg hb, if_neg h4]
      simp
  refine ⟨hmain, gwTransientTrace_filter_slept creds req pre k ck hpre,
    gwTransientTrace_count_refreshed creds req pre k ck hpre,
    gwTransientTrace_events_shape creds req pre k ck, ?_⟩
  intro out evs ckf hout s hs
  rw [hmain] at hout
  have hout1 : out = (if 400 ≤ r.status ∧ r.status < 600 then Except.error r.status
      else Except.ok r) := by
    have := congrArg (fun o => o.map (fun x => x.1)) hout
    simpa using this.symm
  rw [hout1] at hs
  by_cases h4 : 400 ≤ r.status ∧ r.status < 600
  · rw [if_pos h4] at hs
    cases hs
    exact ⟨h409, h429⟩
  · rw [if_neg h4] at hs
    cases hs

/-- Witness for C1: a 429 (Retry-After 5) then a 409 then a 200, starting
at cookie 3; the gateway sleeps 5, refreshes to credential 100, and
returns the 200. -/
theorem request_transient_recovery_witness :
    gwRequest (fun j => 100 + j) 1 [⟨429, 5⟩, ⟨409, 0⟩, ⟨200, 0⟩] 0 3 =
      some (Except.ok ⟨200, 0⟩,
        [GEv.attempt 1 3, GEv.slept 5, GEv.attempt 1 3, GEv.refreshed 100,
          GEv.attempt 1 100], 100) := by
  have h := request_transient_recovery (fun j => 100 + j) 1 [⟨429, 5⟩, ⟨409, 0⟩] ⟨200, 0⟩
    [] 0 3 (by decide) (by decide) (by decide)
  have h1 := h.1
  rw [show ([⟨429, 5⟩, ⟨409, 0⟩] : List HResp) ++ [⟨200, 0⟩] =
    [⟨429, 5⟩, ⟨409, 0⟩, ⟨200, 0⟩] from rfl] at h1
  rw [h1]
  rfl

/-- C1 counterexample: a 304 response — not a 2xx status — is returned as
success by the gateway instead of raising: `raise_for_status` only raises
for statuses in 400–599. -/
theorem request_non2xx_counterexample :
    gwRequest (fun _ => 0) 0 [⟨304, 0⟩] 0 7 =
      some (Except.ok ⟨304, 0⟩, [GEv.attempt 0 7], 7)
    ∧ ¬ (200 ≤ 304 ∧ 304 < 300)
    ∧ (∀ (s : Nat) (evs : List GEv) (ckf : Nat),
        gwRequest (fun _ => 0) 0 [⟨304, 0⟩] 0 7 ≠ some (Except.error s, evs, ckf)) := by
  refine ⟨rfl, by omega, ?_⟩
  intro s evs ckf h
  rw [show gwRequest (fun _ => 0) 0 [⟨304, 0⟩] 0 7 =
    some (Except.ok ⟨304, 0⟩, [GEv.attempt 0 7], 7) from rfl] at h
  simp at h

/-! ## Claim theorems for the result cache -/

/-- C5: `get_results` under `functools.lru_cache(1)` is a one-slot cache
keyed by `(market, time_period)`: starting from a fresh client, two
consecutive calls with identical arguments issue exactly one network
call, the second returning the cached page with unchanged state; and a
call whose key differs from the cached one issues a new network call and
replaces (evicts) the slot. -/
theorem get_results_one_slot_cache :
    (∀ (oracle : Str → Str → Page) (m t : Str),
      (cachedGet oracle (cachedGet oracle rcEmpty m t).2 m t).2.ncalls = 1
      ∧ (cachedGet oracle (cachedGet oracle rcEmpty m t).2 m t).1 =
          (cachedGet oracle rcEmpty m t).1
      ∧ (cachedGet oracle (cachedGet oracle rcEmpty m t).2 m t).2 =
          (cachedGet oracle rcEmpty m t).2)
    ∧ (∀ (oracle : Str → Str → Page) (rc : RC) (k : Str × Str) (v : Page) (m t : Str),
        rc.slot = some (k, v) → k ≠ (m, t) →
        cachedGet oracle rc m t =
          (oracle m t, ⟨some ((m, t), oracle m t), rc.ncalls + 1⟩)) := by
  constructor
  · intro oracle m t
    simp [cachedGet, rcEmpty]
  · intro oracle rc k v m t hslot hne
    simp [cachedGet, hslot, hne]

/-- Witness for C5: a concrete differing-key call evicts and calls out. -/
theorem get_results_one_slot_cache_witness :
    cachedGet (fun m t => (m ++ t, [])) ⟨some (([1], [2]), ([3], [])), 5⟩ [4] [5] =
      ((([4] : Str) ++ [5], ([] : List (List Str))),
        (⟨some ((([4] : Str), ([5] : Str)), (([4] : Str) ++ [5], [])), 6⟩ : RC)) :=
  get_results_one_slot_cache.2 (fun m t => (m ++ t, [])) ⟨some (([1], [2]), ([3], [])), 5⟩
    ([1], [2]) ([3], []) [4] [5] rfl (by decide)

/-! ## Filesystem lemmas -/

theorem FS.makedirs_files (fs : FS) (d : FPath) : (fs.makedirs d).files = fs.files := rfl

theorem FS.isFile_any_false (fs : FS) (p : FPath) (h : fs.isFile p = false) :
    ∀ f ∈ fs.files, f.1 ≠ p := by
  intro f hf
  have := List.any_eq_false.mp h f hf
  simpa using this

theorem FS.filter_ne_of_isFile_false (fs : FS) (p : FPath) (h : fs.isFile p = false) :
    fs.files.filter (fun f => f.1 ≠ p) = fs.files := by
  rw [List.filter_eq_self]
  intro f hf
  simpa using FS.isFile_any_false fs p h f hf

theorem FS.writeFile_removeFile_files (fs : FS) (p : FPath) (rows : List (List Str)) :
    ((fs.writeFile p rows).removeFile p).files = fs.files.filter (fun f => f.1 ≠ p) := by
  show List.filter (fun f => f.1 ≠ p) ((p, rows) :: fs.files.filter (fun f => f.1 ≠ p)) = _
  rw [List.filter_cons]
  rw [if_neg (by simp)]
  rw [List.filter_filter]
  apply List.filter_congr
  intro f _
  cases hfp : (decide (f.1 ≠ p)) <;> simp_all

theorem FS.isFile_removeFile (fs : FS) (p : FPath) : (fs.removeFile p).isFile p = false := by
  show ((fs.files.filter (fun f => f.1 ≠ p)).any (fun f => f.1 = p)) = false
  rw [List.any_eq_false]
  intro f hf
  have := (List.mem_filter.mp hf).2
  simpa using this

/-! ## Fragment-write atomicity (C4) -/

theorem processMarket_error_inv (oracle : Str → Str → Page) (failAt : FPath → Option Nat)
    (ctx : Ctx) (tp : Str) (st : St) (market : Str) (st' : St)
    (h : processMarket oracle failAt ctx tp st market = Except.error st') :
    st'.fs.files = st.fs.files
    ∧ st'.fs.isFile (st'.tempDir.getD [] ++ [fragName market]) = false := by
  by_cases hdate : st.date = []
  · simp only [processMarket, if_pos hdate] at h
    split at h
    next hfile => simp at h
    next hfile =>
      split at h
      next heq =>
        split at h
        next k hfail =>
          cases h
          refine ⟨?_, FS.isFile_removeFile _ _⟩
          rw [FS.writeFile_removeFile_files, FS.makedirs_files]
          exact FS.filter_ne_of_isFile_false _ _ (by simpa using hfile)
        next hfail => simp at h
      next heq => simp at h
  · simp only [processMarket, if_neg hdate] at h
    split at h
    next hfile => simp at h
    next hfile =>
      split at h
      next heq =>
        split at h
        next k hfail =>
          cases h
          refine ⟨?_, FS.isFile_removeFile _ _⟩
          rw [FS.writeFile_removeFile_files]
          exact FS.filter_ne_of_isFile_false _ _ (by simpa using hfile)
        next hfail => simp at h
      next heq => simp at h

/-- C4: fragment writes are all-or-nothing.  If the CSV write for a market
fails, the raised state has the partial fragment file deleted — the
files on disk are exactly those before the market was processed, and no
fragment file for that market exists — and the error propagates through
the market loop, the period, and the whole dump, aborting the run. -/
theorem fragment_write_failure_atomic :
    (∀ (oracle : Str → Str → Page) (failAt : FPath → Option Nat) (ctx : Ctx) (tp : Str)
      (st : St) (market : Str) (st' : St),
      processMarket oracle failAt ctx tp st market = Except.error st' →
      st'.fs.files = st.fs.files
      ∧ st'.fs.isFile (st'.tempDir.getD [] ++ [fragName market]) = false)
    ∧ (∀ (oracle : Str → Str → Page) (failAt : FPath → Option Nat) (ctx : Ctx) (tp : Str)
      (m : Str) (ms : List Str) (st st' : St),
      processMarket oracle failAt ctx tp st m = Except.error st' →
      marketLoop oracle failAt ctx tp (m :: ms) st = Except.error st')
    ∧ (∀ (oracle : Str → Str → Page) (failAt : FPath → Option Nat) (ctx : Ctx)
      (markets : List Str) (tp : Str) (fs : FS) (rc : RC) (log : List LogEv) (st' : St),
      marketLoop oracle failAt ctx tp (filterByIndex ctx.marketFilter markets)
        ⟨fs, rc, [], none, log⟩ = Except.error st' →
      dumpPeriod oracle failAt ctx markets tp fs rc log = Except.error st')
    ∧ (∀ (oracle : Str → Str → Page) (failAt : FPath → Option Nat) (ctx : Ctx)
      (markets : List Str) (tp : Str) (tps : List Str) (st st' : St),
      dumpPeriod oracle failAt ctx markets tp st.fs st.rc st.log = Except.error st' →
      dump oracle failAt ctx markets (tp :: tps) st = Except.error st') := by
  refine ⟨processMarket_error_inv, ?_, ?_, ?_⟩
  · intro oracle failAt ctx tp m ms st st' h
    simp [marketLoop, h]
  · intro oracle failAt ctx markets tp fs rc log st' h
    simp [dumpPeriod, h, Except.map]
  · intro oracle failAt ctx markets tp tps st st' h
    simp [dump, h]

/-- A run that makes the C4 failure concrete: the single market `"A"`,
whose CSV write fails immediately. -/
def failOracle : Str → Str → Page := fun _ _ => ([100], [[[97], [98]]])

/-- The raised state of that run, as `processMarket` produces it. -/
def failStOut : St :=
  ⟨⟨[], [[[112], [100], [126, 49]]]⟩,
    ⟨some (([65], [116]), ([100], [[[97], [98]]])), 1⟩, [100],
    some [[112], [100], [126, 49]],
    [LogEv.writeErr [[112], [100], [126, 49], [81, 81, 46, 99, 115, 118]]]⟩

/-- Witness for C4: the concrete failing write leaves the file list
untouched and no fragment for the market. -/
theorem fragment_write_failure_atomic_witness :
    failStOut.fs.files = (⟨⟨[], []⟩, rcEmpty, [], none, []⟩ : St).fs.files
    ∧ failStOut.fs.isFile (failStOut.tempDir.getD [] ++ [fragName [65]]) = false :=
  fragment_write_failure_atomic.1 failOracle (fun _ => some 0) ⟨1, [112], [], [], []⟩ [116]
    ⟨⟨[], []⟩, rcEmpty, [], none, []⟩ [65] failStOut (by decide)

/-! ## Fragment-exists skip behaviour (C6) -/

/-- C6 (amended): when the period label is already set, a market whose
fragment file exists is skipped with a skip log line and no network fetch
at all — the results-client state (hence its network-call count), the
filesystem, label and fragment directory are unchanged.  But when the
label is not yet set (the market is the first selected one of the
period), the dumper first fetches that market's page once — a network
call on a cold cache — to obtain the label, and only then skips. -/
theorem fragment_skip_no_refetch :
    (∀ (oracle : Str → Str → Page) (failAt : FPath → Option Nat) (ctx : Ctx) (tp : Str)
      (st : St) (market : Str),
      st.date ≠ [] →
      st.fs.isFile (st.tempDir.getD [] ++ [fragName market]) = true →
      processMarket oracle failAt ctx tp st market =
        Except.ok { st with log := st.log ++ [LogEv.skip market tp] })
    ∧ (∀ (oracle : Str → Str → Page) (failAt : FPath → Option Nat) (ctx : Ctx) (tp : Str)
      (st : St) (market : Str),
      st.date = [] →
      st.rc.slot = none →
      (st.fs.makedirs [ctx.baseDir, (oracle market tp).1, tildeName ctx.reportId]).isFile
        ([ctx.baseDir, (oracle market tp).1, tildeName ctx.reportId] ++ [fragName market]) =
          true →
      processMarket oracle failAt ctx tp st market =
        Except.ok { st with
          rc := ⟨some ((market, tp), oracle market tp), st.rc.ncalls + 1⟩,
          date := (oracle market tp).1,
          tempDir := some [ctx.baseDir, (oracle market tp).1, tildeName ctx.reportId],
          fs := st.fs.makedirs [ctx.baseDir, (oracle market tp).1, tildeName ctx.reportId],
          log := st.log ++ [LogEv.skip market tp] }) := by
  constructor
  · intro oracle failAt ctx tp st market hdate hfile
    simp only [processMarket]
    rw [if_neg hdate, if_pos hfile]
  · intro oracle failAt ctx tp st market hdate hslot hfile
    simp only [processMarket]
    rw [if_pos hdate]
    simp only [cachedGet, hslot, Option.getD_some]
    rw [if_pos hfile]

/-- The scenario of the C6 counterexample: one market `"A"` whose
fragment file already exists on disk before the run. -/
def skipOracle : Str → Str → Page := fun _ _ => ([100], [[[97]]])

/-- A filesystem that already holds the fragment of market `"A"`
(`QQ.csv`, left by an earlier run) in `p/d/~1`. -/
def skipFs : FS :=
  ⟨[([[112], [100], [126, 49], [81, 81, 46, 99, 115, 118]], [[[120]]])],
    [[[112], [100], [126, 49]]]⟩

/-- The state after processing that market. -/
def skipStOut : St :=
  ⟨skipFs, ⟨some (([65], [116]), ([100], [[[97]]])), 1⟩, [100],
    some [[112], [100], [126, 49]], [LogEv.skip [65] [116]]⟩

/-- C6 counterexample: re-running when the fragment of the first selected
market already exists still issues one network fetch for that market (to
obtain the period label) before skipping it — the claim's "without
issuing a network fetch" fails for the market that establishes the
label. -/
theorem fragment_skip_first_market_counterexample :
    processMarket skipOracle (fun _ => none) ⟨1, [112], [], [], []⟩ [116]
        ⟨skipFs, rcEmpty, [], none, []⟩ [65] = Except.ok skipStOut
    ∧ skipStOut.rc.ncalls = 1
    ∧ skipStOut.log = [LogEv.skip [65] [116]]
    ∧ skipFs.isFile ([[112], [100], [126, 49]] ++ [fragName [65]]) = true :=
  ⟨by decide, by decide, by decide, by decide⟩

/-- Witness for C6: with the label already set and the fragment on disk,
the market is skipped with no state change but the log line. -/
theorem fragment_skip_no_refetch_witness :
    processMarket skipOracle (fun _ => none) ⟨1, [112], [], [], []⟩ [116] skipStOut [65] =
      Except.ok { skipStOut with log := skipStOut.log ++ [LogEv.skip [65] [116]] } :=
  fragment_skip_no_refetch.1 skipOracle (fun _ => none) ⟨1, [112], [], [], []⟩ [116]
    skipStOut [65] (by decide) (by decide)

/-! ## Consolidation (C3) -/

theorem dirContains_refl : ∀ d : FPath, dirContains d d = true
  | [] => rfl
  | a :: as_ => by simp [dirContains, dirContains_refl as_]

theorem natStrAux_head (fuel : Nat) : ∀ (n : Nat) (acc : Str),
    (∀ x ∈ acc, 48 ≤ x ∧ x ≤ 57) →
    ∃ c cs, natStrAux (fuel + 1) n acc = c :: cs ∧ 48 ≤ c ∧ c ≤ 57 := by
  induction fuel with
  | zero =>
    intro n acc hacc
    by_cases h : n < 10 <;>
      exact ⟨48 + n % 10, acc, by simp [natStrAux, h], by omega, by omega⟩
  | succ fuel ih =>
    intro n acc hacc
    by_cases h : n < 10
    · exact ⟨48 + n % 10, acc, by simp [natStrAux, h], by omega, by omega⟩
    · have hacc' : ∀ x ∈ (48 + n % 10) :: acc, 48 ≤ x ∧ x ≤ 57 := by
        intro x hx
        rcases List.mem_cons.mp hx with rfl | hx
        · constructor <;> omega
        · exact hacc x hx
      obtain ⟨c, cs, heq, hc1, hc2⟩ := ih (n / 10) ((48 + n % 10) :: acc) hacc'
      refine ⟨c, cs, ?_, hc1, hc2⟩
      show (if n < 10 then (48 + n % 10) :: acc
        else natStrAux (fuel + 1) (n / 10) ((48 + n % 10) :: acc)) = c :: cs
      rw [if_neg h, heq]

theorem natStr_head (n : Nat) : ∃ c cs, natStr n = c :: cs ∧ 48 ≤ c ∧ c ≤ 57 :=
  natStrAux_head n n [] (by simp)

theorem tildeName_ne_csvName (i : Int) : tildeName i ≠ csvName i := by
  unfold tildeName csvName intStr
  by_cases hi : i < 0
  · rw [if_pos hi]
    intro h
    rw [List.cons_append] at h
    simp at h
  · rw [if_neg hi]
    obtain ⟨c, cs, heq, hc1, hc2⟩ := natStr_head i.toNat
    rw [heq]
    intro h
    rw [List.cons_append] at h
    have := (List.cons.injEq _ _ _ _).mp h
    omega

theorem isFragOf_length (d : FPath) (f : FPath × List (List Str))
    (h : isFragOf d f = true) : f.1.length = d.length + 1 := by
  unfold isFragOf at h
  simp only [Bool.and_eq_true, decide_eq_true_eq] at h
  exact h.1.2

theorem fragmentsIn_writeFile (fs : FS) (d p : FPath) (rows : List (List Str))
    (hlen : p.length ≠ d.length + 1) :
    fragmentsIn (fs.writeFile p rows) d = fragmentsIn fs d := by
  unfold fragmentsIn FS.writeFile
  rw [List.filter_cons]
  rw [if_neg (by simp [isFragOf, hlen])]
  rw [List.filter_filter]
  apply List.filter_congr
  intro f _
  cases hP : isFragOf d f
  · simp
  · have hne : f.1 ≠ p := by
      intro he
      exact hlen (he ▸ isFragOf_length d f hP)
    simp [hne]

theorem FS.isFile_rmtree_under (fs : FS) (d p : FPath) (h : dirContains d p = true) :
    (fs.rmtree d).isFile p = false := by
  show ((fs.files.filter (fun f => ¬ dirContains d f.1)).any (fun f => f.1 = p)) = false
  rw [List.any_eq_false]
  intro f hf
  have hfil := (List.mem_filter.mp hf).2
  simp only [decide_eq_true_eq] at hfil
  simp only [decide_eq_true_eq]
  intro he
  rw [he] at hfil
  exact hfil h

theorem FS.isDir_rmtree_self (fs : FS) (d : FPath) : (fs.rmtree d).isDir d = false := by
  show ((fs.dirs.filter (fun p => ¬ dirContains d p)).contains d) = false
  rw [List.contains_eq_any_beq, List.any_eq_false]
  intro p hp
  have hfil := (List.mem_filter.mp hp).2
  simp only [decide_eq_true_eq] at hfil
  simp only [beq_iff_eq]
  intro he
  rw [← he] at hfil
  exact hfil (dirContains_refl d)

theorem processMarket_shape (oracle : Str → Str → Page) (failAt : FPath → Option Nat)
    (ctx : Ctx) (tp : Str) (st : St) (market : Str) (st' : St)
    (h : processMarket oracle failAt ctx tp st market = Except.ok st')
    (hst : st.tempDir = none ∨
      ∃ dt, st.tempDir = some [ctx.baseDir, dt, tildeName ctx.reportId]) :
    st'.tempDir = none ∨
      ∃ dt, st'.tempDir = some [ctx.baseDir, dt, tildeName ctx.reportId] := by
  by_cases hdate : st.date = []
  · simp only [processMarket, if_pos hdate] at h
    split at h
    next hfile =>
      cases h
      exact Or.inr ⟨_, rfl⟩
    next hfile =>
      split at h
      next heq =>
        split at h
        next k hfail => simp at h
        next hfail =>
          cases h
          exact Or.inr ⟨_, rfl⟩
      next heq =>
        cases h
        exact Or.inr ⟨_, rfl⟩
  · simp only [processMarket, if_neg hdate] at h
    split at h
    next hfile =>
      cases h
      exact hst
    next hfile =>
      split at h
      next heq =>
        split at h
        next k hfail => simp at h
        next hfail =>
          cases h
          exact hst
      next heq =>
        cases h
        exact hst

theorem marketLoop_shape (oracle : Str → Str → Page) (failAt : FPath → Option Nat)
    (ctx : Ctx) (tp : Str) :
    ∀ (ms : List Str) (st st' : St),
      marketLoop oracle failAt ctx tp ms st = Except.ok st' →
      (st.tempDir = none ∨
        ∃ dt, st.tempDir = some [ctx.baseDir, dt, tildeName ctx.reportId]) →
      (st'.tempDir = none ∨
        ∃ dt, st'.tempDir = some [ctx.baseDir, dt, tildeName ctx.reportId])
  | [], st, st', h, hst => by
    simp only [marketLoop] at h
    cases h
    exact hst
  | m :: ms, st, st', h, hst => by
    simp only [marketLoop] at h
    cases hpm : processMarket oracle failAt ctx tp st m with
    | ok st1 =>
      rw [hpm] at h
      exact marketLoop_shape oracle failAt ctx tp ms st1 st' h
        (processMarket_shape oracle failAt ctx tp st m st1 hpm hst)
    | error st1 =>
      rw [hpm] at h
      simp at h

/-- C3: after the market loop of a period, if a fragment directory was
created (`temp_dir` is set) and still exists, the dumper consolidates: the
period's output file `dirname(temp_dir)/reportId.csv` holds exactly the
concatenated rows of every fragment file present in the directory
(including files left by earlier runs), each consumed fragment is logged,
and the entire fragment directory is deleted — no file under it remains
and the directory itself is gone. -/
theorem dump_consolidation (oracle : Str → Str → Page) (failAt : FPath → Option Nat)
    (ctx : Ctx) (markets : List Str) (tp : Str) (fs : FS) (rc : RC) (log : List LogEv)
    (st : St) (d : FPath)
    (h : marketLoop oracle failAt ctx tp (filterByIndex ctx.marketFilter markets)
      ⟨fs, rc, [], none, log⟩ = Except.ok st)
    (hd : st.tempDir = some d)
    (hdir : st.fs.isDir d = true) :
    dumpPeriod oracle failAt ctx markets tp fs rc log = Except.ok (consolidate ctx st d)
    ∧ (consolidate ctx st d).fs.read (d.dropLast ++ [csvName ctx.reportId]) =
        some ((fragmentsIn st.fs d).map (fun f => f.2)).flatten
    ∧ (∀ f ∈ fragmentsIn st.fs d,
        LogEv.consumed f.1 st.date ∈ (consolidate ctx st d).log)
    ∧ (∀ p : FPath, dirContains d p = true → (consolidate ctx st d).fs.isFile p = false)
    ∧ (consolidate ctx st d).fs.isDir d = false := by
  have hshape := marketLoop_shape oracle failAt ctx tp _ _ _ h (Or.inl rfl)
  rw [hd] at hshape
  rcases hshape with h' | ⟨dt, hdt⟩
  · simp at h'
  · have hdeq : d = [ctx.baseDir, dt, tildeName ctx.reportId] := Option.some.inj hdt
    have hne : tildeName ctx.reportId ≠ csvName ctx.reportId := tildeName_ne_csvName _
    have hblen : (d.dropLast ++ [csvName ctx.reportId]).length ≠ d.length + 1 := by
      rw [hdeq]
      simp
    have hnc : dirContains d (d.dropLast ++ [csvName ctx.reportId]) = false := by
      rw [hdeq]
      simp [dirContains, hne]
    have hfrag1 : fragmentsIn (st.fs.writeFile (d.dropLast ++ [csvName ctx.reportId]) []) d =
        fragmentsIn st.fs d :=
      fragmentsIn_writeFile st.fs d _ [] hblen
    refine ⟨?_, ?_, ?_, ?_, ?_⟩
    · simp only [dumpPeriod, h, Except.map, hd, hdir, if_true]
    · simp only [consolidate]
      rw [hfrag1]
      unfold FS.read FS.rmtree FS.writeFile
      simp only []
      rw [List.filter_cons]
      rw [if_pos (by simp [hnc])]
      rw [List.find?_cons_of_pos _ (by simp)]
      rfl
    · intro f hf
      simp only [consolidate]
      rw [hfrag1]
      simp only [List.mem_append]
      exact Or.inl (Or.inr (List.mem_map.mpr ⟨f, hf, rfl⟩))
    · intro p hp
      exact FS.isFile_rmtree_under _ d p hp
    · exact FS.isDir_rmtree_self _ d

/-- The oracle of the C3 witness run: every page has label `"d"` and one
row holding the market name. -/
def consOracle : Str → Str → Page := fun m _ => ([100], [[m]])

/-- The state after the market loop of the C3 witness run over markets
`"A"` and `"B"`: two fragment files in `p/d/~1`, two network calls, two
write log lines. -/
def consSt : St :=
  ⟨⟨[([[112], [100], [126, 49], [81, 103, 46, 99, 115, 118]], [[[66]]]),
      ([[112], [100], [126, 49], [81, 81, 46, 99, 115, 118]], [[[65]]])],
     [[[112], [100], [126, 49]]]⟩,
    ⟨some (([66], [116]), ([100], [[[66]]])), 2⟩, [100],
    some [[112], [100], [126, 49]],
    [LogEv.wrote [65] [116] [[112], [100], [126, 49], [81, 81, 46, 99, 115, 118]],
      LogEv.wrote [66] [116] [[112], [100], [126, 49], [81, 103, 46, 99, 115, 118]]]⟩

/-- Witness for C3: the concrete two-market period consolidates. -/
theorem dump_consolidation_witness :
    dumpPeriod consOracle (fun _ => none) ⟨1, [112], [], [], []⟩ [[65], [66]] [116]
        ⟨[], []⟩ rcEmpty [] =
      Except.ok (consolidate ⟨1, [112], [], [], []⟩ consSt [[112], [100], [126, 49]]) :=
  (dump_consolidation consOracle (fun _ => none) ⟨1, [112], [], [], []⟩ [[65], [66]] [116]
    ⟨[], []⟩ rcEmpty [] consSt [[112], [100], [126, 49]] (by decide) rfl (by decide)).1

end Pyce
